import Mathlib

/-!
Verification development for the PyMagento client library.

Each Python module of the repository that the specification's claims touch is
shallowly embedded as executable Lean definitions:

* `magento/queries.py`  → `make_search_query`, `make_field_value_query`
* `magento/client.py`   → `get_paginated` (pagination engine) and the
  query-dictionary mutation discipline (`preparedQueries`, a heap model)
* `magento/batches.py`  → `BatchSaver` (`add_item`, `send_batch`, `finalize`)
  and `BatchGetter` (`bgLoop`, `bgIterate`)
* `magento/exceptions.py` → `build_exception_text`

Python `dict`s produced by the query builder are represented as
insertion-ordered association lists.  The wire keys built with f-strings in
the source are represented by the structured type `QKey` which records the
holes of the f-string template; `QKey.render` reproduces the exact string of
the source, and is injective on the keys the builder emits (indices are
rendered in decimal between fixed brackets), so equality of `QKey`s mirrors
equality of the generated wire-key strings.
-/

namespace PyMagento

/-- JSON-ish scalar values stored in a query mapping (`Any` in the source). -/
inductive Val : Type where
  | s (v : String)
  | i (v : Int)
deriving DecidableEq, Repr

/-- Structured form of the wire keys built by `magento/queries.py` and
`magento/client.py`.  Each constructor corresponds to one f-string template
of the source; the `Nat`/`String` arguments are the template's holes. -/
inductive QKey : Type where
  | pageSize
  | currentPage
  | filterAttr (g f : Nat) (k : String)
  | sortAttr (i : Nat) (k : String)
deriving DecidableEq, Repr

/-- Rendering of a structured key to the exact wire string of the source. -/
def QKey.render : QKey → String
  | .pageSize => "searchCriteria[pageSize]"
  | .currentPage => "searchCriteria[currentPage]"
  | .filterAttr g f k =>
      "searchCriteria[filter_groups][" ++ toString g ++ "][filters][" ++
        toString f ++ "][" ++ k ++ "]"
  | .sortAttr i k =>
      "searchCriteria[sortOrders][" ++ toString i ++ "][" ++ k ++ "]"

/-- One filter condition `(field, value, condition_type)` as in the source. -/
abbrev Filter := String × Val × Option String

/-- Entries added for the filter at position `(g, f)`: the loop over
`(("field", field), ("value", value), ("condition_type", ct))` that skips
`condition_type` when it is `None` (`queries.py`, lines 43-51). -/
def entriesForFilter (g f : Nat) (fil : Filter) : List (QKey × Val) :=
  [(QKey.filterAttr g f "field", Val.s fil.1),
   (QKey.filterAttr g f "value", fil.2.1)] ++
  (match fil.2.2 with
   | none => []
   | some c => [(QKey.filterAttr g f "condition_type", Val.s c)])

/-- Inner `enumerate(filter_group)` loop, `f` being the running index. -/
def filterEntries (g : Nat) : Nat → List Filter → List (QKey × Val)
  | _, [] => []
  | f, fil :: rest => entriesForFilter g f fil ++ filterEntries g (f + 1) rest

/-- Outer `enumerate(filter_groups)` loop, `g` being the running index. -/
def groupEntries : Nat → List (List Filter) → List (QKey × Val)
  | _, [] => []
  | g, grp :: rest => filterEntries g 0 grp ++ groupEntries (g + 1) rest

/-- `enumerate(sort_orders)` loop of `make_search_query`. -/
def sortEntries : Nat → List (String × String) → List (QKey × Val)
  | _, [] => []
  | i, (field, direction) :: rest =>
      [(QKey.sortAttr i "field", Val.s field),
       (QKey.sortAttr i "direction", Val.s direction)] ++ sortEntries (i + 1) rest

/-- `if page_size is not None: query_params["searchCriteria[pageSize]"] = page_size`. -/
def pageSizeEntries : Option Int → List (QKey × Val)
  | none => []
  | some ps => [(QKey.pageSize, Val.i ps)]

/-- `if current_page is not None: query_params["searchCriteria[currentPage]"] = current_page`. -/
def currentPageEntries : Option Int → List (QKey × Val)
  | none => []
  | some cp => [(QKey.currentPage, Val.i cp)]

/-- `if sort_orders:` guard plus the sort-order loop.  A present-but-empty
sequence is falsy in Python and skipped, which produces the same entries as
the loop over an empty sequence, so both are modelled by `sortEntries`. -/
def sortOrderEntries : Option (List (String × String)) → List (QKey × Val)
  | none => []
  | some so => sortEntries 0 so

/-- Embedding of `make_search_query` (`queries.py`, lines 10-58).  The
returned insertion-ordered association list models the Python dict
`query_params`; no key is ever produced twice because positions are unique,
so association-list append is faithful to dict insertion. -/
def make_search_query (filter_groups : List (List Filter))
    (sort_orders : Option (List (String × String)))
    (page_size current_page : Option Int) : List (QKey × Val) :=
  pageSizeEntries page_size ++ currentPageEntries current_page ++
  groupEntries 0 filter_groups ++ sortOrderEntries sort_orders

/-- Embedding of `make_field_value_query` (`queries.py`, lines 61-79): wraps
the single triple in one group of one filter and forwards. -/
def make_field_value_query (field : String) (value : Val)
    (condition_type : Option String) (page_size current_page : Option Int)
    (sort_orders : Option (List (String × String))) : List (QKey × Val) :=
  make_search_query [[(field, value, condition_type)]] sort_orders page_size current_page

theorem mem_filterEntries_of_get (g : Nat) :
    ∀ (grp : List Filter) (i j : Nat) (fil : Filter),
      grp.get? j = some fil →
      ((QKey.filterAttr g (i + j) "field", Val.s fil.1) ∈ filterEntries g i grp ∧
       (QKey.filterAttr g (i + j) "value", fil.2.1) ∈ filterEntries g i grp ∧
       ∀ c, fil.2.2 = some c →
         (QKey.filterAttr g (i + j) "condition_type", Val.s c) ∈ filterEntries g i grp) := by
  intro grp
  induction grp with
  | nil => intro i j fil h; simp at h
  | cons hd tl ih =>
      intro i j fil h
      cases j with
      | zero =>
          rw [List.get?_cons_zero] at h
          cases h
          refine ⟨?_, ?_, ?_⟩
          · simp [filterEntries, entriesForFilter]
          · simp [filterEntries, entriesForFilter]
          · intro c hc; simp [filterEntries, entriesForFilter, hc]
      | succ j =>
          rw [List.get?_cons_succ] at h
          have h' := ih (i + 1) j fil h
          have e : i + (j + 1) = (i + 1) + j := by omega
          rw [e]
          refine ⟨?_, ?_, ?_⟩
          · exact List.mem_append_right _ h'.1
          · exact List.mem_append_right _ h'.2.1
          · intro c hc; exact List.mem_append_right _ (h'.2.2 c hc)

theorem mem_groupEntries_of_get :
    ∀ (fgs : List (List Filter)) (a g : Nat) (grp : List Filter) (x : QKey × Val),
      fgs.get? g = some grp → x ∈ filterEntries (a + g) 0 grp →
      x ∈ groupEntries a fgs := by
  intro fgs
  induction fgs with
  | nil => intro a g grp x h; simp at h
  | cons hd tl ih =>
      intro a g grp x h hx
      cases g with
      | zero =>
          rw [List.get?_cons_zero] at h
          cases h
          exact List.mem_append_left _ hx
      | succ g =>
          rw [List.get?_cons_succ] at h
          have e : (a + 1) + g = a + (g + 1) := by omega
          exact List.mem_append_right _ (ih (a + 1) g grp x h (by rw [e]; exact hx))

theorem filterAttr_mem_filterEntries (g : Nat) :
    ∀ (grp : List Filter) (i : Nat) (g' f' : Nat) (k : String) (w : Val),
      (QKey.filterAttr g' f' k, w) ∈ filterEntries g i grp →
      g' = g ∧ i ≤ f' ∧ ∃ fil, grp.get? (f' - i) = some fil ∧
        ((k = "field" ∧ w = Val.s fil.1) ∨ (k = "value" ∧ w = fil.2.1) ∨
         (k = "condition_type" ∧ ∃ c, fil.2.2 = some c ∧ w = Val.s c)) := by
  intro grp
  induction grp with
  | nil => intro i g' f' k w h; simp [filterEntries] at h
  | cons hd tl ih =>
      intro i g' f' k w h
      rw [filterEntries, List.mem_append] at h
      obtain ⟨fld0, v0, ct0⟩ := hd
      rcases h with h | h
      · cases hmatch : ct0 with
        | none =>
            simp only [entriesForFilter, hmatch, List.append_nil, List.cons_append,
              List.nil_append, List.singleton_append, List.mem_cons,
              List.mem_singleton, List.not_mem_nil, or_false,
              Prod.mk.injEq, QKey.filterAttr.injEq] at h
            rcases h with ⟨⟨hg, hf, hk⟩, hw⟩ | ⟨⟨hg, hf, hk⟩, hw⟩
            · exact ⟨hg, by omega, (fld0, v0, none), by simp [hf], Or.inl ⟨hk, hw⟩⟩
            · exact ⟨hg, by omega, (fld0, v0, none), by simp [hf],
                Or.inr (Or.inl ⟨hk, hw⟩)⟩
        | some c =>
            simp only [entriesForFilter, hmatch, List.cons_append, List.nil_append,
              List.singleton_append, List.mem_cons, List.mem_singleton,
              List.not_mem_nil, or_false,
              Prod.mk.injEq, QKey.filterAttr.injEq] at h
            rcases h with ⟨⟨hg, hf, hk⟩, hw⟩ | ⟨⟨hg, hf, hk⟩, hw⟩ | ⟨⟨hg, hf, hk⟩, hw⟩
            · exact ⟨hg, by omega, (fld0, v0, some c), by simp [hf], Or.inl ⟨hk, hw⟩⟩
            · exact ⟨hg, by omega, (fld0, v0, some c), by simp [hf],
                Or.inr (Or.inl ⟨hk, hw⟩)⟩
            · exact ⟨hg, by omega, (fld0, v0, some c), by simp [hf],
                Or.inr (Or.inr ⟨hk, c, rfl, hw⟩)⟩
      · rcases ih (i + 1) g' f' k w h with ⟨hg, hle, fil, hget, hrest⟩
        refine ⟨hg, by omega, fil, ?_, hrest⟩
        have e : f' - i = (f' - (i + 1)) + 1 := by omega
        rw [e, List.get?_cons_succ]
        exact hget

theorem filterAttr_mem_groupEntries :
    ∀ (fgs : List (List Filter)) (a : Nat) (g' f' : Nat) (k : String) (w : Val),
      (QKey.filterAttr g' f' k, w) ∈ groupEntries a fgs →
      a ≤ g' ∧ ∃ grp, fgs.get? (g' - a) = some grp ∧
        (QKey.filterAttr g' f' k, w) ∈ filterEntries g' 0 grp := by
  intro fgs
  induction fgs with
  | nil => intro a g' f' k w h; simp [groupEntries] at h
  | cons hd tl ih =>
      intro a g' f' k w h
      rw [groupEntries, List.mem_append] at h
      rcases h with h | h
      · have hg : g' = a := (filterAttr_mem_filterEntries a hd 0 g' f' k w h).1
        subst hg
        exact ⟨le_refl g', hd, by simp, h⟩
      · rcases ih (a + 1) g' f' k w h with ⟨hle, grp, hget, hmem⟩
        refine ⟨by omega, grp, ?_, hmem⟩
        have e : g' - a = (g' - (a + 1)) + 1 := by omega
        rw [e, List.get?_cons_succ]
        exact hget

theorem filterAttr_not_mem_sortEntries (g f : Nat) (k : String) (w : Val) :
    ∀ (so : List (String × String)) (i : Nat),
      (QKey.filterAttr g f k, w) ∉ sortEntries i so := by
  intro so
  induction so with
  | nil => intro i h; simp [sortEntries] at h
  | cons hd tl ih =>
      intro i h
      obtain ⟨a, b⟩ := hd
      rw [sortEntries, List.cons_append, List.singleton_append, List.mem_cons,
        List.mem_cons] at h
      rcases h with h | h | h
      · simp at h
      · simp at h
      · exact ih (i + 1) h

/-- Helper: a `filterAttr` entry is in the full query output iff it is among
the filter-group entries; the pageSize/currentPage/sortOrders segments only
carry keys of other shapes. -/
theorem filterAttr_mem_make_search_query
    (fgs : List (List Filter)) (so : Option (List (String × String)))
    (ps cp : Option Int) (g f : Nat) (k : String) (w : Val) :
    (QKey.filterAttr g f k, w) ∈ make_search_query fgs so ps cp ↔
      (QKey.filterAttr g f k, w) ∈ groupEntries 0 fgs := by
  constructor
  · intro h
    rw [make_search_query, List.append_assoc, List.append_assoc, List.mem_append,
      List.mem_append, List.mem_append] at h
    rcases h with h | h | h | h
    · rcases ps with _ | p <;> simp [pageSizeEntries] at h
    · rcases cp with _ | p <;> simp [currentPageEntries] at h
    · exact h
    · rcases so with _ | l
      · simp [sortOrderEntries] at h
      · exact absurd h (filterAttr_not_mem_sortEntries g f k w l 0)
  · intro h
    rw [make_search_query, List.append_assoc, List.append_assoc, List.mem_append,
      List.mem_append, List.mem_append]
    exact Or.inr (Or.inr (Or.inl h))

/-- C2 (amended): for every filter triple `(field, value, condition_type)` at
any `(group, filter)` position passed to `make_search_query`, the output
mapping contains the `[field]` and `[value]` wire keys for that position, and
contains the `[condition_type]` wire key if and only if `condition_type` is
not `None`.  (The original claim said the key is omitted also for an explicit
`"eq"`; the code only skips `None`, see the counterexample.) -/
theorem make_search_query_filter_keys
    (fgs : List (List Filter)) (so : Option (List (String × String)))
    (ps cp : Option Int) (g f : Nat) (grp : List Filter) (fld : String)
    (v : Val) (ct : Option String)
    (hg : fgs.get? g = some grp) (hf : grp.get? f = some (fld, v, ct)) :
    (QKey.filterAttr g f "field", Val.s fld) ∈ make_search_query fgs so ps cp ∧
    (QKey.filterAttr g f "value", v) ∈ make_search_query fgs so ps cp ∧
    ((∃ w, (QKey.filterAttr g f "condition_type", w) ∈ make_search_query fgs so ps cp)
      ↔ ct ≠ none) := by
  have hmem := mem_filterEntries_of_get g grp 0 f (fld, v, ct) hf
  rw [Nat.zero_add] at hmem
  have lift : ∀ x : QKey × Val, x ∈ filterEntries g 0 grp →
      x ∈ make_search_query fgs so ps cp := by
    intro x hx
    have hx' : x ∈ groupEntries 0 fgs := by
      refine mem_groupEntries_of_get fgs 0 g grp x hg ?_
      rw [Nat.zero_add]
      exact hx
    rw [make_search_query]
    exact List.mem_append_left _ (List.mem_append_right _ hx')
  refine ⟨lift _ hmem.1, lift _ hmem.2.1, ?_, ?_⟩
  · rintro ⟨w, hw⟩
    have hgrp := (filterAttr_mem_make_search_query fgs so ps cp g f
      "condition_type" w).1 hw
    rcases filterAttr_mem_groupEntries fgs 0 g f "condition_type" w hgrp with
      ⟨-, grp', hget', hmem'⟩
    rw [Nat.sub_zero, hg] at hget'
    cases hget'
    rcases filterAttr_mem_filterEntries g grp 0 g f "condition_type" w hmem' with
      ⟨-, -, fil, hgetf, hdisj⟩
    rw [Nat.sub_zero, hf] at hgetf
    cases hgetf
    rcases hdisj with ⟨hk, -⟩ | ⟨hk, -⟩ | ⟨-, c, hc, -⟩
    · exact absurd hk (by decide)
    · exact absurd hk (by decide)
    · simp only at hc
      rw [hc]
      exact Option.some_ne_none c
  · intro hct
    rcases ct with _ | c
    · exact absurd rfl hct
    · exact ⟨Val.s c, lift _ (hmem.2.2 c rfl)⟩

/-- C2 witness: the amended theorem instantiated on a concrete query with an
explicit non-`None` condition type. -/
theorem make_search_query_filter_keys_witness :
    (QKey.filterAttr 0 0 "field", Val.s "status") ∈
        make_search_query [[("status", Val.s "ok", some "in")]] none none none ∧
    (QKey.filterAttr 0 0 "value", Val.s "ok") ∈
        make_search_query [[("status", Val.s "ok", some "in")]] none none none ∧
    ((∃ w, (QKey.filterAttr 0 0 "condition_type", w) ∈
        make_search_query [[("status", Val.s "ok", some "in")]] none none none)
      ↔ (some "in" : Option String) ≠ none) :=
  make_search_query_filter_keys [[("status", Val.s "ok", some "in")]] none none none
    0 0 [("status", Val.s "ok", some "in")] "status" (Val.s "ok") (some "in") rfl rfl

/-- C2 counterexample: the claim asserts the `[condition_type]` wire key is
emitted iff `condition_type` is neither `None` nor `"eq"`, but the code
(`queries.py`, lines 48-50) only skips `None`: an explicit `"eq"` produces
the key.  Evaluating `make_search_query` at a single `"eq"` filter shows the
key present, refuting the claim. -/
theorem make_search_query_eq_condition_emitted :
    (QKey.filterAttr 0 0 "condition_type", Val.s "eq") ∈
      make_search_query [[("a", Val.i 1, some "eq")]] none none none := by
  decide

/-- C7: `make_field_value_query f v c ...` returns exactly the same wire
mapping as `make_search_query [[(f, v, c)]] ...` with the same optional
arguments — the convenience wrapper forwards with no independent logic. -/
theorem make_field_value_query_eq_make_search_query
    (f : String) (v : Val) (c : Option String) (ps cp : Option Int)
    (so : Option (List (String × String))) :
    make_field_value_query f v c ps cp so = make_search_query [[(f, v, c)]] so ps cp :=
  rfl

/-! ## Pagination engine (`client.py`, `Magento.get_paginated`, lines 1436-1499)

The HTTP collaborator is abstracted as `fetch : Nat → Page α`: the response
obtained for `searchCriteria[currentPage] = n`.  `get_paginated` is a Python
generator whose `while True:` loop has no intrinsic bound (an inconsistent
server can keep it running forever), so the loop is embedded with a `fuel`
parameter; the `Bool` in the result tells whether the generator finished
within the given fuel, and every theorem below supplies enough fuel. -/

/-- One page of results: `res.get("items", [])` and `res["total_count"]`.
`total_count` is whatever integer the server reports. -/
structure Page (α : Type) where
  items : List α
  total_count : Int
deriving DecidableEq, Repr

/-- Embedding of the inner `for item in items:` loop (lines 1488-1497): each
item is yielded, `count` is incremented, and the generator returns as soon as
`count >= total_count` or `count >= limit > 0`.  Returns the yielded items,
the final `count`, and whether one of the two `return`s fired. -/
def processItems (limit tc : Int) : List α → Nat → List α × Nat × Bool
  | [], count => ([], count, false)
  | item :: rest, count =>
      if tc ≤ ((count + 1 : Nat) : Int) ∨ ((limit ≤ ((count + 1 : Nat) : Int)) ∧ 0 < limit)
      then ([item], count + 1, true)
      else
        let r := processItems limit tc rest (count + 1)
        (item :: r.1, r.2.1, r.2.2)

/-- Embedding of the `while True:` loop (lines 1472-1499): fetch the current
page, stop on an empty `items` list (`break`), otherwise process the items
and either return from within the item loop or advance `current_page`.
Returns (yielded items, number of page requests issued, finished?). -/
def runPages (fetch : Nat → Page α) (limit : Int) : Nat → Nat → Nat → List α × Nat × Bool
  | 0, _page, _count => ([], 0, false)
  | fuel + 1, page, count =>
      let p := fetch page
      if p.items.isEmpty then ([], 1, true)
      else
        let r := processItems limit p.total_count p.items count
        if r.2.2 then (r.1, 1, true)
        else
          let rest := runPages fetch limit fuel (page + 1) r.2.1
          (r.1 ++ rest.1, rest.2.1 + 1, rest.2.2)

/-- Embedding of `get_paginated`: the `if limit == 0: return` short-circuit
(line 1450) followed by the page loop starting at `current_page = 1`,
`count = 0`. -/
def get_paginated (fetch : Nat → Page α) (limit : Int) (fuel : Nat) :
    List α × Nat × Bool :=
  if limit = 0 then ([], 0, true) else runPages fetch limit fuel 1 0

/-- Embedding of the effective page size computation (lines 1453-1457):
`page_size = self.PAGE_SIZE` when the argument is `None`, then
`if 0 < limit < page_size: page_size = limit`. -/
def effectivePageSize (PAGE_SIZE : Nat) (page_size : Option Nat) (limit : Int) : Nat :=
  let ps := page_size.getD PAGE_SIZE
  if 0 < limit ∧ limit < (ps : Int) then limit.toNat else ps

/-- Total number of items on pages `page, page+1, ..., page+j-1`. -/
def cumLenFrom (fetch : Nat → Page α) (page : Nat) : Nat → Nat
  | 0 => 0
  | j + 1 => (fetch page).items.length + cumLenFrom fetch (page + 1) j

/-- Number of items after which the generator's in-loop `return`s fire, for a
server that consistently reports `total_count = tc`: `min(limit, tc)` when
`limit > 0`, `tc` when `limit < 0` (unbounded walk). -/
def stopThreshold (limit tc : Int) : Nat :=
  if 0 < limit then min limit.toNat tc.toNat else tc.toNat

/-- Number of items `get_paginated` is headed for, including the
`limit == 0` short-circuit. -/
def yieldTarget (limit tc : Int) : Nat :=
  if limit = 0 then 0 else stopThreshold limit tc

theorem stopCond_iff (limit tc : Int) (c : Nat) (hc : 1 ≤ c) :
    (tc ≤ (c : Int) ∨ ((limit ≤ (c : Int)) ∧ 0 < limit)) ↔ stopThreshold limit tc ≤ c := by
  rw [stopThreshold]
  split <;> omega

theorem processItems_stop (limit tc : Int) :
    ∀ (items : List α) (count : Nat),
      count < stopThreshold limit tc →
      stopThreshold limit tc ≤ count + items.length →
      ∃ ys, processItems limit tc items count = (ys, stopThreshold limit tc, true) ∧
        ys.length = stopThreshold limit tc - count := by
  intro items
  induction items with
  | nil => intro count h1 h2; simp at h2; omega
  | cons item rest ih =>
      intro count h1 h2
      rw [processItems]
      by_cases hs : stopThreshold limit tc ≤ count + 1
      · rw [if_pos ((stopCond_iff limit tc (count + 1) (by omega)).2 hs)]
        have : stopThreshold limit tc = count + 1 := by omega
        exact ⟨[item], by rw [this],
          by rw [List.length_singleton, this, Nat.add_sub_cancel_left]⟩
      · rw [if_neg (fun hcon =>
          hs ((stopCond_iff limit tc (count + 1) (by omega)).1 hcon))]
        rcases ih (count + 1) (by omega) (by simp at h2; omega) with ⟨ys, hys, hlen⟩
        refine ⟨item :: ys, ?_, ?_⟩
        · rw [hys]
        · simp [hlen]; omega

theorem processItems_go (limit tc : Int) :
    ∀ (items : List α) (count : Nat),
      count + items.length < stopThreshold limit tc →
      processItems limit tc items count = (items, count + items.length, false) := by
  intro items
  induction items with
  | nil => intro count h; simp [processItems]
  | cons item rest ih =>
      intro count h
      rw [processItems]
      have hlt : count + 1 < stopThreshold limit tc := by simp at h; omega
      rw [if_neg (fun hcon =>
        absurd ((stopCond_iff limit tc (count + 1) (by omega)).1 hcon) (by omega))]
      rw [ih (count + 1) (by simp at h ⊢; omega)]
      simp
      omega

theorem cumLenFrom_const (fetch : Nat → Page α) (ps : Nat) :
    ∀ (j page : Nat), (∀ n, page ≤ n → (fetch n).items.length = ps) →
      cumLenFrom fetch page j = j * ps := by
  intro j
  induction j with
  | zero => intro page _; simp [cumLenFrom]
  | succ j ih =>
      intro page hlen
      rw [cumLenFrom, hlen page le_rfl, ih (page + 1) (fun n hn => hlen n (by omega))]
      ring

/-- Core run lemma: against a server whose pages are all non-empty and all
report `total_count = T`, the generator finishes, yields exactly
`stopThreshold limit T - count` further items, and its last request is the
one on which the running cumulative item count first reaches the
threshold. -/
theorem runPages_reach (fetch : Nat → Page α) (limit T : Int) :
    ∀ (fuel page count : Nat),
      (∀ n, page ≤ n → (fetch n).items ≠ []) →
      (∀ n, page ≤ n → (fetch n).total_count = T) →
      count < stopThreshold limit T →
      stopThreshold limit T - count ≤ fuel →
      ∃ ys reqs, runPages fetch limit fuel page count = (ys, reqs, true) ∧
        ys.length = stopThreshold limit T - count ∧ 1 ≤ reqs ∧
        cumLenFrom fetch page (reqs - 1) < stopThreshold limit T - count ∧
        stopThreshold limit T - count ≤ cumLenFrom fetch page reqs := by
  intro fuel
  induction fuel with
  | zero => intro page count _ _ hcount hfuel; omega
  | succ fuel ih =>
      intro page count hne htc hcount hfuel
      have hne0 : (fetch page).items ≠ [] := hne page le_rfl
      have htc0 : (fetch page).total_count = T := htc page le_rfl
      have hlen1 : 1 ≤ (fetch page).items.length := List.length_pos.2 hne0
      have hemp : (fetch page).items.isEmpty = false := by
        rw [List.isEmpty_eq_false]
        exact hne0
      by_cases hstop : stopThreshold limit T ≤ count + (fetch page).items.length
      · rcases processItems_stop limit T (fetch page).items count hcount hstop with
          ⟨ys, hys, hyslen⟩
        have hr : processItems limit (fetch page).total_count (fetch page).items count
            = (ys, stopThreshold limit T, true) := by rw [htc0]; exact hys
        refine ⟨ys, 1, ?_, hyslen, le_rfl, ?_, ?_⟩
        · simp only [runPages, hemp, Bool.false_eq_true, if_false, if_true, hr]
        · rw [Nat.sub_self]
          show cumLenFrom fetch page 0 < _
          rw [cumLenFrom]
          omega
        · show _ ≤ cumLenFrom fetch page (0 + 1)
          rw [cumLenFrom, cumLenFrom]
          omega
      · have hgo : count + (fetch page).items.length < stopThreshold limit T := by omega
        have hr : processItems limit (fetch page).total_count (fetch page).items count
            = ((fetch page).items, count + (fetch page).items.length, false) := by
          rw [htc0]
          exact processItems_go limit T (fetch page).items count hgo
        rcases ih (page + 1) (count + (fetch page).items.length)
            (fun n hn => hne n (by omega)) (fun n hn => htc n (by omega)) hgo
            (by omega) with ⟨ys', reqs', hrun, hlen', hreq1, hlow, hhigh⟩
        refine ⟨(fetch page).items ++ ys', reqs' + 1, ?_, ?_, by omega, ?_, ?_⟩
        · simp only [runPages, hemp, Bool.false_eq_true, if_false, if_true, hr, hrun]
        · rw [List.length_append]
          omega
        · rw [Nat.add_sub_cancel]
          have e : reqs' = (reqs' - 1) + 1 := by omega
          rw [e, cumLenFrom]
          omega
        · rw [cumLenFrom]
          omega

/-- Fixture for the C1 counterexample: every page is `[0]` and reports
`total_count = 0`. -/
def pagesCX1 : Nat → Page Nat := fun _ => ⟨[0], 0⟩

/-- C1 counterexample: with `limit = 5 > 0` and a collaborator whose pages
are all non-empty and report `total_count = 0` (its cumulative item total
trivially reaches that total), the generator yields 1 item (it stops only
after the first yield makes `count >= total_count`), not
`min(limit, total_count) = 0` as the claim requires. -/
theorem get_paginated_total_count_zero_cx :
    (∀ n, 1 ≤ n → (pagesCX1 n).items ≠ []) ∧
    (∀ n, 1 ≤ n → (pagesCX1 n).total_count = 0) ∧
    (∃ N, ((0 : Int)).toNat ≤ cumLenFrom pagesCX1 1 N) ∧
    (0 : Int) < 5 ∧
    (get_paginated pagesCX1 5 10).1.length ≠ (min (5 : Int) 0).toNat := by
  refine ⟨fun n _ => by simp [pagesCX1], fun n _ => rfl, ⟨0, by decide⟩, by decide, by decide⟩

/-- C1 (amended): for every `limit > 0`, every reported `total_count >= 1`,
and every collaborator returning only non-empty pages that consistently
report that total (their cumulative item total reaches it), `get_paginated`
yields exactly `min(limit, total_count)` items, and its final page request is
the one on which the yielded-item count first reaches that value — no request
is issued after it.  (The original claim also covered `total_count <= 0`,
where the code yields one extra item; see the counterexample.) -/
theorem get_paginated_yields_min (fetch : Nat → Page α) (limit T : Int) (fuel : Nat)
    (hl : 0 < limit) (hT : 1 ≤ T)
    (hne : ∀ n, 1 ≤ n → (fetch n).items ≠ [])
    (htc : ∀ n, 1 ≤ n → (fetch n).total_count = T)
    (_hreach : ∃ N, T.toNat ≤ cumLenFrom fetch 1 N)
    (hfuel : (min limit T).toNat ≤ fuel) :
    ∃ ys reqs, get_paginated fetch limit fuel = (ys, reqs, true) ∧
      ys.length = (min limit T).toNat ∧ 1 ≤ reqs ∧
      cumLenFrom fetch 1 (reqs - 1) < (min limit T).toNat ∧
      (min limit T).toNat ≤ cumLenFrom fetch 1 reqs := by
  have hM : stopThreshold limit T = (min limit T).toNat := by
    rw [stopThreshold, if_pos hl]
    omega
  have h0 : 0 < stopThreshold limit T := by rw [stopThreshold, if_pos hl]; omega
  rcases runPages_reach fetch limit T fuel 1 0 hne htc h0 (by omega) with
    ⟨ys, reqs, hrun, hlen, hreq, hlow, hhigh⟩
  rw [Nat.sub_zero] at hlen hlow hhigh
  rw [hM] at hlen hlow hhigh
  exact ⟨ys, reqs, by rw [get_paginated, if_neg (by omega)]; exact hrun,
    hlen, hreq, hlow, hhigh⟩

/-- Fixture for the C1 witness: pages of two items, `total_count = 3`. -/
def pagesW1 : Nat → Page Nat := fun _ => ⟨[7, 8], 3⟩

/-- C1 witness: the amended theorem instantiated at `limit = 5`,
`total_count = 3`, two-item pages. -/
theorem get_paginated_yields_min_witness :
    ∃ ys reqs, get_paginated pagesW1 5 10 = (ys, reqs, true) ∧
      ys.length = (min (5 : Int) 3).toNat ∧ 1 ≤ reqs ∧
      cumLenFrom pagesW1 1 (reqs - 1) < (min (5 : Int) 3).toNat ∧
      (min (5 : Int) 3).toNat ≤ cumLenFrom pagesW1 1 reqs :=
  get_paginated_yields_min pagesW1 5 3 10 (by decide) (by decide)
    (fun n _ => by simp [pagesW1]) (fun n _ => rfl) ⟨2, by decide⟩ (by decide)


/-- Fixture for the C3 counterexample: a collaborator that under-fills its
pages — every page holds a single item while reporting `total_count = 2`. -/
def pagesCX3 : Nat → Page Nat := fun _ => ⟨[0], 2⟩

/-- C3 counterexample: choose any `limit` (here the unbounded `-1`) and page
size (here 2).  Nothing forces the collaborator to fill its pages: with
one-item pages reporting `total_count = 2` the walk issues 2 requests, more
than the claimed bound `ceil(min(limit, total_count) / page_size) = 1`
(`yieldTarget (-1) 2 = 2` is the `min(limit, total_count)` of the claim, read
as `total_count` for an unbounded limit). -/
theorem get_paginated_request_bound_cx :
    ¬ ((get_paginated pagesCX3 (-1) 10).2.1 ≤ (yieldTarget (-1) 2 + 2 - 1) / 2) := by
  decide

/-- C3 (amended): provided every page the collaborator returns holds exactly
`ps >= 1` items and reports the same `total_count = T >= 1`, a full walk of
`get_paginated` issues at most `ceil(min(limit, total_count) / ps)` page
requests (the `min` read as `total_count` when `limit < 0` and as `0` when
`limit = 0`, which is what `yieldTarget` computes), yields at most `limit`
items when `limit > 0`, and never yields more than `total_count` items.
(The original claim quantified over every collaborator; an under-filling or
inconsistently-reporting server breaks the bound, see the counterexample.) -/
theorem get_paginated_request_bound (fetch : Nat → Page α) (limit T : Int)
    (ps fuel : Nat) (hps : 1 ≤ ps) (hT : 1 ≤ T)
    (hlen : ∀ n, 1 ≤ n → (fetch n).items.length = ps)
    (htc : ∀ n, 1 ≤ n → (fetch n).total_count = T)
    (hfuel : yieldTarget limit T ≤ fuel) :
    (get_paginated fetch limit fuel).2.1 ≤ (yieldTarget limit T + ps - 1) / ps ∧
    (0 < limit → (get_paginated fetch limit fuel).1.length ≤ limit.toNat) ∧
    (get_paginated fetch limit fuel).1.length ≤ T.toNat := by
  by_cases hl0 : limit = 0
  · subst hl0
    rw [get_paginated, if_pos rfl]
    exact ⟨Nat.zero_le _, fun h => absurd h (by omega), Nat.zero_le _⟩
  · have hM1 : 1 ≤ stopThreshold limit T := by rw [stopThreshold]; split <;> omega
    have hyt : yieldTarget limit T = stopThreshold limit T := if_neg hl0
    rcases runPages_reach fetch limit T fuel 1 0
        (fun n hn => by
          have := hlen n hn
          intro hnil
          rw [hnil] at this
          simp at this
          omega)
        htc (by omega) (by rw [hyt] at hfuel; omega) with
      ⟨ys, reqs, hrun, hlens, hreq1, hlow, hhigh⟩
    rw [Nat.sub_zero] at hlens hlow hhigh
    have hpag : get_paginated fetch limit fuel = (ys, reqs, true) := by
      rw [get_paginated, if_neg hl0]
      exact hrun
    rw [hpag, hyt]
    have hcl : cumLenFrom fetch 1 (reqs - 1) = (reqs - 1) * ps :=
      cumLenFrom_const fetch ps (reqs - 1) 1 hlen
    rw [hcl] at hlow
    refine ⟨?_, ?_, ?_⟩
    · have h1 : reqs - 1 ≤ (stopThreshold limit T - 1) / ps :=
        (Nat.le_div_iff_mul_le (by omega)).2 (by omega)
      have e : stopThreshold limit T + ps - 1 = (stopThreshold limit T - 1) + ps := by
        omega
      rw [e, Nat.add_div_right _ (by omega)]
      simp only
      omega
    · intro hl
      rw [hlens, stopThreshold, if_pos hl]
      omega
    · rw [hlens, stopThreshold]
      split <;> omega

/-- Fixture for the C3 witness: two-item pages reporting `total_count = 3`. -/
def pagesW3 : Nat → Page Nat := fun _ => ⟨[4, 5], 3⟩

/-- C3 witness: the amended theorem instantiated at `limit = -1`, `ps = 2`,
`total_count = 3`. -/
theorem get_paginated_request_bound_witness :
    (get_paginated pagesW3 (-1) 10).2.1 ≤ (yieldTarget (-1) 3 + 2 - 1) / 2 ∧
    (0 < (-1 : Int) → (get_paginated pagesW3 (-1) 10).1.length ≤ ((-1 : Int)).toNat) ∧
    (get_paginated pagesW3 (-1) 10).1.length ≤ ((3 : Int)).toNat :=
  get_paginated_request_bound pagesW3 (-1) 3 2 10 (by decide) (by decide)
    (fun n _ => rfl) (fun n _ => rfl) (by decide)

/-- C6: from any state of the walk (any current page and running count), if
the fetched page's `items` list is empty the generator stops at once — that
request is the last one (`1` request counted, none after it) and nothing
more is yielded — even when the count is still below the page's reported
`total_count`. -/
theorem runPages_empty_page (fetch : Nat → Page α) (limit : Int)
    (fuel page count : Nat) (hempty : (fetch page).items = [])
    (_hbelow : (count : Int) < (fetch page).total_count) :
    runPages fetch limit (fuel + 1) page count = ([], 1, true) := by
  simp [runPages, hempty]

/-- Fixture for the C6 witness: every page is empty with `total_count = 5`. -/
def pagesW6 : Nat → Page Nat := fun _ => ⟨[], 5⟩

/-- C6 witness: the theorem instantiated at the first page of an
empty-paged collaborator whose reported total (5) is not reached. -/
theorem runPages_empty_page_witness :
    (pagesW6 1).items = [] ∧ ((0 : Nat) : Int) < (pagesW6 1).total_count ∧
    runPages pagesW6 (-1) 1 1 0 = ([], 1, true) :=
  ⟨rfl, by decide, runPages_empty_page pagesW6 (-1) 0 1 0 rfl (by decide)⟩

/-! ## BatchSaver (`batches.py`, lines 12-68)

The Magento client and API path only matter to `_put_batch`, which performs
the HTTP call; the counters and buffer discipline are independent of it, so
the state is the triple `(_batch, _sent_batches, _sent_items)`. -/

/-- Mutable state of a `BatchSaver`: `self._batch`, `self._sent_batches`,
`self._sent_items`. -/
structure SaverState (α : Type) where
  batch : List α
  sent_batches : Nat
  sent_items : Nat
deriving DecidableEq, Repr

/-- State of a freshly constructed `BatchSaver` (`__init__`). -/
def initSaver (α : Type) : SaverState α := ⟨[], 0, 0⟩

/-- Embedding of `send_batch` (lines 35-46): `if not self._batch: return`,
otherwise the counters absorb the buffer and it is replaced by a fresh empty
list.  (The HTTP call `_put_batch` has no effect on this state.) -/
def send_batch (s : SaverState α) : SaverState α :=
  if s.batch.isEmpty then s
  else ⟨[], s.sent_batches + 1, s.sent_items + s.batch.length⟩

/-- Embedding of `add_item` (lines 26-33): append, then flush when the
buffer length reaches `batch_size`. -/
def add_item (batch_size : Nat) (item : α) (s : SaverState α) : SaverState α :=
  let s' : SaverState α := ⟨s.batch ++ [item], s.sent_batches, s.sent_items⟩
  if batch_size ≤ s'.batch.length then send_batch s' else s'

/-- `add_item` over a whole list of items, in order. -/
def addAll (batch_size : Nat) (items : List α) (s : SaverState α) : SaverState α :=
  items.foldl (fun t x => add_item batch_size x t) s

/-- Embedding of `finalize` (lines 51-62): one last `send_batch`, then the
stats dictionary, modelled as the pair `(sent_batches, sent_items)`. -/
def finalize (s : SaverState α) : SaverState α × (Nat × Nat) :=
  (send_batch s, ((send_batch s).sent_batches, (send_batch s).sent_items))

theorem addAll_counts (batch_size : Nat) (hN : 0 < batch_size) :
    ∀ (items : List α) (s : SaverState α), s.batch.length < batch_size →
      (addAll batch_size items s).batch.length
          = (s.batch.length + items.length) % batch_size ∧
      (addAll batch_size items s).sent_batches
          = s.sent_batches + (s.batch.length + items.length) / batch_size ∧
      (addAll batch_size items s).batch.length
            + (addAll batch_size items s).sent_items
          = s.batch.length + s.sent_items + items.length ∧
      (addAll batch_size items s).batch.length < batch_size := by
  intro items
  induction items with
  | nil =>
      intro s hs
      rw [addAll]
      simp only [List.foldl_nil, List.length_nil, Nat.add_zero]
      exact ⟨(Nat.mod_eq_of_lt hs).symm,
        by rw [Nat.div_eq_of_lt hs, Nat.add_zero], trivial, hs⟩
  | cons x rest ih =>
      intro s hs
      have hstep : addAll batch_size (x :: rest) s
          = addAll batch_size rest (add_item batch_size x s) := by
        rw [addAll, addAll, List.foldl_cons]
      by_cases hflush : batch_size ≤ s.batch.length + 1
      · have hb : s.batch.length + 1 = batch_size := by omega
        have hadd : add_item batch_size x s
            = ⟨[], s.sent_batches + 1, s.sent_items + batch_size⟩ := by
          rw [add_item]
          simp only [List.length_append, List.length_singleton]
          rw [if_pos (by omega), send_batch]
          rw [if_neg (by simp)]
          simp only [List.length_append, List.length_singleton]
          rw [hb]
        rw [hstep, hadd]
        rcases ih ⟨[], s.sent_batches + 1, s.sent_items + batch_size⟩
            (by simpa using hN) with ⟨h1, h2, h3, h4⟩
        simp only [List.length_nil, Nat.zero_add] at h1 h2 h3
        refine ⟨?_, ?_, by rw [List.length_cons]; omega, h4⟩
        · rw [List.length_cons, h1,
            show s.batch.length + (rest.length + 1)
              = rest.length + 1 * batch_size from by omega,
            Nat.add_mul_mod_self_right]
        · rw [List.length_cons, h2,
            show s.batch.length + (rest.length + 1)
              = rest.length + batch_size from by omega,
            Nat.add_div_right _ hN]
          omega
      · have hadd : add_item batch_size x s
            = ⟨s.batch ++ [x], s.sent_batches, s.sent_items⟩ := by
          rw [add_item]
          simp only [List.length_append, List.length_singleton]
          rw [if_neg (by omega)]
        rw [hstep, hadd]
        rcases ih ⟨s.batch ++ [x], s.sent_batches, s.sent_items⟩
            (by simp only [List.length_append, List.length_singleton]; omega) with
          ⟨h1, h2, h3, h4⟩
        simp only [List.length_append, List.length_singleton] at h1 h2 h3
        refine ⟨?_, ?_, by rw [List.length_cons]; omega, h4⟩
        · rw [List.length_cons,
            show s.batch.length + (rest.length + 1)
              = s.batch.length + 1 + rest.length from by omega]
          exact h1
        · rw [List.length_cons,
            show s.batch.length + (rest.length + 1)
              = s.batch.length + 1 + rest.length from by omega]
          exact h2

/-- C4: for a `BatchSaver` with positive `batch_size = N`, after adding
exactly `k*N + r` items (`0 <= r < N`) from a fresh state, exactly `k`
automatic sends have occurred and `r` items remain buffered; `finalize()`
performs exactly one more send iff `r > 0`, and afterwards the returned
stats are `sent_items = k*N + r` and `sent_batches = k + (1 if r > 0 else 0)`. -/
theorem batchSaver_flush_boundary (N k r : Nat) (items : List α)
    (hN : 0 < N) (hr : r < N) (hlen : items.length = k * N + r) :
    (addAll N items (initSaver α)).sent_batches = k ∧
    (addAll N items (initSaver α)).batch.length = r ∧
    (finalize (addAll N items (initSaver α))).1.sent_batches
        = (addAll N items (initSaver α)).sent_batches
            + (if 0 < r then 1 else 0) ∧
    (finalize (addAll N items (initSaver α))).2
        = (k + (if 0 < r then 1 else 0), k * N + r) := by
  rcases addAll_counts N hN items (initSaver α) (by simpa [initSaver] using hN) with
    ⟨h1, h2, h3, -⟩
  simp only [show (initSaver α).batch.length = 0 from rfl,
    show (initSaver α).sent_batches = 0 from rfl,
    show (initSaver α).sent_items = 0 from rfl,
    Nat.zero_add, Nat.add_zero, hlen] at h1 h2 h3
  have hmod : (k * N + r) % N = r := by
    rw [show k * N + r = r + k * N from by omega, Nat.add_mul_mod_self_right,
      Nat.mod_eq_of_lt hr]
  have hdiv : (k * N + r) / N = k := by
    rw [show k * N + r = r + k * N from by omega, Nat.add_mul_div_right _ _ hN,
      Nat.div_eq_of_lt hr]
    omega
  rw [hmod] at h1
  rw [hdiv] at h2
  have hsb : (addAll N items (initSaver α)).sent_batches = k := by omega
  have hsi : (addAll N items (initSaver α)).sent_items = k * N := by omega
  have hemp : (addAll N items (initSaver α)).batch.isEmpty = (r = 0 : Bool) := by
    rcases hb : (addAll N items (initSaver α)).batch with _ | ⟨y, ys⟩
    · rw [hb] at h1
      simp at h1
      simp [h1]
    · rw [hb] at h1
      rw [List.isEmpty_cons]
      rw [List.length_cons] at h1
      have : r ≠ 0 := by omega
      simp [this]
  have hsend_pos : 0 < r → send_batch (addAll N items (initSaver α))
      = ⟨[], k + 1, k * N + r⟩ := by
    intro hr0
    rw [send_batch, hemp, if_neg (by simp; omega), hsb, hsi, h1]
  have hsend_neg : r = 0 → send_batch (addAll N items (initSaver α))
      = addAll N items (initSaver α) := by
    intro hr0
    rw [send_batch, hemp, if_pos (by simp [hr0])]
  refine ⟨hsb, h1, ?_, ?_⟩
  · by_cases hr0 : 0 < r
    · rw [finalize, hsend_pos hr0, if_pos hr0, hsb]
    · rw [finalize, hsend_neg (by omega), if_neg hr0, Nat.add_zero]
  · by_cases hr0 : 0 < r
    · rw [finalize, hsend_pos hr0, if_pos hr0]
    · have hr0' : r = 0 := by omega
      rw [finalize, hsend_neg hr0', if_neg hr0, hr0', Nat.add_zero, Nat.add_zero]
      rw [Prod.mk.injEq]
      exact ⟨hsb, hsi⟩

/-- C4 witness: `N = 2`, three items added (`k = 1`, `r = 1`). -/
theorem batchSaver_flush_boundary_witness :
    (addAll 2 [10, 11, 12] (initSaver Nat)).sent_batches = 1 ∧
    (addAll 2 [10, 11, 12] (initSaver Nat)).batch.length = 1 ∧
    (finalize (addAll 2 [10, 11, 12] (initSaver Nat))).1.sent_batches
        = (addAll 2 [10, 11, 12] (initSaver Nat)).sent_batches
            + (if 0 < 1 then 1 else 0) ∧
    (finalize (addAll 2 [10, 11, 12] (initSaver Nat))).2
        = (1 + (if 0 < 1 then 1 else 0), 1 * 2 + 1) :=
  batchSaver_flush_boundary 2 1 1 [10, 11, 12] (by decide) (by decide) (by decide)

/-! ## BatchGetter (`batches.py`, lines 90-135)

The getter collaborator is abstracted as a function from the built query and
the `limit` argument to the list of results it returns.  `str(key)` is
abstracted as a coercion function `toStr`. -/

/-- Query built by `_get_batch` (lines 107-108): `key_field IN` the
comma-joined batch, via `make_field_value_query`. -/
def batchQuery (key_field : String) (batch : List String) : List (QKey × Val) :=
  make_field_value_query key_field (Val.s (String.intercalate "," batch)) (some "in")
    none none none

/-- Items yielded by one `_get_batch` call (lines 103-111): nothing on an
empty buffer, otherwise the getter's results for the `IN` query with
`limit = len(batch)`. -/
def flushOut (getter : List (QKey × Val) → Nat → List τ) (key_field : String)
    (batch : List String) : List τ :=
  if batch = [] then [] else getter (batchQuery key_field batch) batch.length

/-- Call trace of one `_get_batch` call: the `(query, limit)` pairs passed to
the getter collaborator. -/
def flushCalls (key_field : String) (batch : List String) :
    List (List (QKey × Val) × Nat) :=
  if batch = [] then [] else [(batchQuery key_field batch, batch.length)]

/-- Embedding of `BatchGetter.__iter__` (lines 113-121) run to exhaustion
over the key sequence `keys`, starting from pending buffer `batch`: for each
key, append `str(key)` to the buffer and flush it through `_get_batch` once
its length stops being `< batch_size`; after the last key, flush the
remaining partial buffer.  Returns (yielded items, getter call trace, final
buffer — always empty). -/
def bgLoop (getter : List (QKey × Val) → Nat → List τ) (key_field : String)
    (batch_size : Nat) (toStr : κ → String) :
    List κ → List String → List τ × List (List (QKey × Val) × Nat) × List String
  | [], batch => (flushOut getter key_field batch, flushCalls key_field batch, [])
  | key :: rest, batch =>
      if (batch ++ [toStr key]).length < batch_size then
        bgLoop getter key_field batch_size toStr rest (batch ++ [toStr key])
      else
        let r := bgLoop getter key_field batch_size toStr rest []
        (flushOut getter key_field (batch ++ [toStr key]) ++ r.1,
         flushCalls key_field (batch ++ [toStr key]) ++ r.2.1, r.2.2)

/-- The stream of string-coerced keys cut into chunks of `b` (the last chunk
may be shorter).  Specification-side definition used to state what the loop
does. -/
def chunksOf (b : Nat) : List α → List (List α)
  | [] => []
  | x :: xs => (x :: xs.take (b - 1)) :: chunksOf b (xs.drop (b - 1))
termination_by l => l.length
decreasing_by simp only [List.length_drop, List.length_cons]; omega

theorem chunksOf_nil (b : Nat) : chunksOf b ([] : List α) = [] := by
  rw [chunksOf.eq_def]

theorem chunksOf_cons (b : Nat) (x : α) (xs : List α) :
    chunksOf b (x :: xs) = (x :: xs.take (b - 1)) :: chunksOf b (xs.drop (b - 1)) := by
  rw [chunksOf.eq_def]

theorem chunksOf_short (b : Nat) (x : α) (xs : List α) (h : xs.length + 1 ≤ b) :
    chunksOf b (x :: xs) = [x :: xs] := by
  rw [chunksOf_cons, List.take_of_length_le (by omega),
    List.drop_of_length_le (by omega), chunksOf_nil]

theorem chunksOf_append_full (b : Nat) (hb : 0 < b) :
    ∀ (c l : List α), c.length = b → chunksOf b (c ++ l) = c :: chunksOf b l := by
  intro c l hc
  cases c with
  | nil => simp at hc; omega
  | cons x cs =>
      rw [List.cons_append, chunksOf_cons,
        List.take_left' (by simp at hc; omega),
        List.drop_left' (by simp at hc; omega)]

theorem chunksOf_length (b : Nat) (hb : 0 < b) :
    ∀ (n : Nat) (l : List α), l.length ≤ n →
      (chunksOf b l).length = (l.length + b - 1) / b := by
  intro n
  induction n with
  | zero =>
      intro l hl
      have : l = [] := List.length_eq_zero.1 (by omega)
      subst this
      rw [chunksOf_nil]
      simp only [List.length_nil, Nat.zero_add]
      rw [Nat.div_eq_of_lt (by omega)]
  | succ n ih =>
      intro l hl
      cases l with
      | nil =>
          rw [chunksOf_nil]
          simp only [List.length_nil, Nat.zero_add]
          rw [Nat.div_eq_of_lt (by omega)]
      | cons x xs =>
          rw [List.length_cons] at hl
          rw [chunksOf_cons, List.length_cons,
            ih (xs.drop (b - 1)) (by simp only [List.length_drop]; omega)]
          simp only [List.length_drop, List.length_cons]
          by_cases hshort : xs.length ≤ b - 1
          · rw [show xs.length - (b - 1) = 0 from by omega]
            simp only [Nat.zero_add]
            rw [Nat.div_eq_of_lt (by omega),
              show xs.length + 1 + b - 1 = xs.length + b from by omega,
              Nat.add_div_right _ hb, Nat.div_eq_of_lt (by omega)]
          · rw [show xs.length - (b - 1) + b - 1 = xs.length - (b - 1) - 1 + b from
                by omega,
              Nat.add_div_right _ hb,
              show xs.length + 1 + b - 1 = xs.length - (b - 1) - 1 + b + b from
                by omega,
              Nat.add_div_right _ hb, Nat.add_div_right _ hb]

theorem bgLoop_spec (getter : List (QKey × Val) → Nat → List τ) (key_field : String)
    (b : Nat) (toStr : κ → String) (hb : 0 < b) :
    ∀ (keys : List κ) (batch : List String), batch.length < b →
      bgLoop getter key_field b toStr keys batch =
        (((chunksOf b (batch ++ keys.map toStr)).map
            (fun c => getter (batchQuery key_field c) c.length)).flatten,
         (chunksOf b (batch ++ keys.map toStr)).map
            (fun c => (batchQuery key_field c, c.length)),
         []) := by
  intro keys
  induction keys with
  | nil =>
      intro batch hlt
      cases batch with
      | nil =>
          simp only [bgLoop, List.map_nil, List.append_nil, chunksOf_nil]
          rw [flushOut, if_pos rfl, flushCalls, if_pos rfl]
          rfl
      | cons y ys =>
          rw [List.length_cons] at hlt
          simp only [bgLoop, List.map_nil, List.append_nil]
          rw [chunksOf_short b y ys (by omega)]
          simp only [List.map_cons, List.map_nil, List.flatten_cons, List.flatten_nil,
            List.append_nil]
          rw [flushOut, if_neg (by simp), flushCalls, if_neg (by simp)]
  | cons key rest ih =>
      intro batch hlt
      have e : batch ++ (key :: rest).map toStr
          = (batch ++ [toStr key]) ++ rest.map toStr := by
        simp
      by_cases hfull : (batch ++ [toStr key]).length < b
      · have hstep : bgLoop getter key_field b toStr (key :: rest) batch
            = bgLoop getter key_field b toStr rest (batch ++ [toStr key]) := by
          simp only [bgLoop, if_pos hfull]
        rw [hstep, ih (batch ++ [toStr key]) hfull, e]
      · have hlen : (batch ++ [toStr key]).length = b := by
          simp only [List.length_append, List.length_singleton] at hfull ⊢
          omega
        have hne : batch ++ [toStr key] ≠ [] := by simp
        have hstep : bgLoop getter key_field b toStr (key :: rest) batch
            = (flushOut getter key_field (batch ++ [toStr key])
                  ++ (bgLoop getter key_field b toStr rest []).1,
               flushCalls key_field (batch ++ [toStr key])
                  ++ (bgLoop getter key_field b toStr rest []).2.1,
               (bgLoop getter key_field b toStr rest []).2.2) := by
          simp only [bgLoop, if_neg hfull]
        rw [hstep, ih [] hb, e, chunksOf_append_full b hb _ _ hlen]
        simp only [List.map_cons, List.flatten_cons, List.nil_append]
        rw [flushOut, if_neg hne, flushCalls, if_neg hne, List.singleton_append]

/-- C5: fully iterating a `BatchGetter` over `m` keys with positive
`batch_size = b` invokes the getter collaborator once per chunk — exactly
`ceil(m / b)` calls (zero when `m = 0`) — each call carrying the
`key_field IN (comma-joined string-coerced chunk)` query and
`limit = len(chunk)`, and the yielded sequence is the concatenation of the
getter calls' results in call order. -/
theorem batchGetter_completeness (getter : List (QKey × Val) → Nat → List τ)
    (key_field : String) (b : Nat) (toStr : κ → String) (keys : List κ)
    (hb : 0 < b) :
    (bgLoop getter key_field b toStr keys []).2.1
        = (chunksOf b (keys.map toStr)).map
            (fun c => (batchQuery key_field c, c.length)) ∧
    (bgLoop getter key_field b toStr keys []).2.1.length
        = (keys.length + b - 1) / b ∧
    (bgLoop getter key_field b toStr keys []).1
        = ((chunksOf b (keys.map toStr)).map
            (fun c => getter (batchQuery key_field c) c.length)).flatten := by
  have h := bgLoop_spec getter key_field b toStr hb keys [] hb
  rw [List.nil_append] at h
  rw [h]
  refine ⟨rfl, ?_, rfl⟩
  rw [List.length_map, chunksOf_length b hb (keys.map toStr).length _ le_rfl,
    List.length_map]

/-- Fixture for the C5 witness: a getter that returns its `limit` argument. -/
def getterW5 : List (QKey × Val) → Nat → List Nat := fun _ n => [n]

/-- C5 witness: the theorem instantiated at three keys and `batch_size = 2`. -/
theorem batchGetter_completeness_witness :
    (bgLoop getterW5 "sku" 2 id ["a", "b", "c"] []).2.1
        = (chunksOf 2 (["a", "b", "c"].map id)).map
            (fun c => (batchQuery "sku" c, c.length)) ∧
    (bgLoop getterW5 "sku" 2 id ["a", "b", "c"] []).2.1.length
        = (["a", "b", "c"].length + 2 - 1) / 2 ∧
    (bgLoop getterW5 "sku" 2 id ["a", "b", "c"] []).1
        = ((chunksOf 2 (["a", "b", "c"].map id)).map
            (fun c => getterW5 (batchQuery "sku" c) c.length)).flatten :=
  batchGetter_completeness getterW5 "sku" 2 id ["a", "b", "c"] (by decide)

/-- Python iterable semantics for the `keys` argument of `BatchGetter`
(line 100): `for key in self.keys` calls `iter(self.keys)`.  A list restarts
from the top on every iteration and is left unchanged; a one-shot iterator
(e.g. a generator) hands over its remaining elements and is consumed. -/
inductive KeySource (κ : Type) where
  | ofList (l : List κ)
  | ofIter (l : List κ)
deriving DecidableEq, Repr

/-- Elements a `for` loop obtains from the source. -/
def KeySource.toIter : KeySource κ → List κ
  | .ofList l => l
  | .ofIter l => l

/-- State of the source once such a `for` loop has exhausted it. -/
def KeySource.afterIter : KeySource κ → KeySource κ
  | .ofList l => .ofList l
  | .ofIter _ => .ofIter []

/-- Mutable state of a `BatchGetter` instance: `self.keys` and
`self._batch`. -/
structure BGState (κ : Type) where
  keys : KeySource κ
  batch : List String
deriving DecidableEq, Repr

/-- One full exhaustion of `BatchGetter.__iter__` on an instance: runs the
loop over whatever the key source currently yields, returning the yielded
items and the instance state afterwards. -/
def bgIterate (getter : List (QKey × Val) → Nat → List τ) (key_field : String)
    (batch_size : Nat) (toStr : κ → String) (st : BGState κ) :
    List τ × BGState κ :=
  ((bgLoop getter key_field batch_size toStr st.keys.toIter st.batch).1,
   ⟨st.keys.afterIter,
    (bgLoop getter key_field batch_size toStr st.keys.toIter st.batch).2.2⟩)

theorem bgLoop_final_batch (getter : List (QKey × Val) → Nat → List τ)
    (key_field : String) (b : Nat) (toStr : κ → String) :
    ∀ (keys : List κ) (batch : List String),
      (bgLoop getter key_field b toStr keys batch).2.2 = [] := by
  intro keys
  induction keys with
  | nil => intro batch; rfl
  | cons key rest ih =>
      intro batch
      by_cases hfull : (batch ++ [toStr key]).length < b
      · simp only [bgLoop, if_pos hfull]
        exact ih (batch ++ [toStr key])
      · simp only [bgLoop, if_neg hfull]
        exact ih []

/-- Fixture for the C9 counterexample: a getter returning one item per call. -/
def getterCX9 : List (QKey × Val) → Nat → List Nat := fun _ _ => [0]

/-- C9 counterexample: the claim quantifies over any keys iterable, but a
re-iterable source (a Python list) restarts: over `keys = ["a"]` with
`batch_size = 1`, a second exhaustion of the same instance yields `[0]`
again, not nothing. -/
theorem bgIterate_list_restarts_cx :
    (bgIterate getterCX9 "sku" 1 id
        (bgIterate getterCX9 "sku" 1 id ⟨KeySource.ofList ["a"], []⟩).2).1 = [0] ∧
    ([0] : List Nat) ≠ [] := by
  constructor
  · rfl
  · simp

/-- C9 (amended): for every `BatchGetter` instance whose keys iterable is a
one-shot iterator, exhausting the iteration once consumes the iterator and
the buffer, so iterating the same instance a second time yields no items.
(For a re-iterable keys source such as a list the second pass yields items
again; see the counterexample.) -/
theorem bgIterate_iterator_second_pass_empty
    (getter : List (QKey × Val) → Nat → List τ) (key_field : String)
    (b : Nat) (toStr : κ → String) (l : List κ) (batch : List String) :
    (bgIterate getter key_field b toStr
        (bgIterate getter key_field b toStr ⟨KeySource.ofIter l, batch⟩).2).1 = [] := by
  rw [bgIterate, bgIterate]
  simp only [KeySource.afterIter, KeySource.toIter,
    bgLoop_final_batch getter key_field b toStr l batch]
  rw [bgLoop, flushOut, if_pos rfl]

/-! ## Exception text interpolation (`exceptions.py`, lines 5-28) -/

/-- ASCII alphanumeric test: the character class `[A-Za-z0-9]` of
`RE_PARAM = re.compile(r"%([A-Za-z0-9]+)")`. -/
def isParamChar (c : Char) : Bool :=
  ('A' ≤ c && c ≤ 'Z') || ('a' ≤ c && c ≤ 'z') || ('0' ≤ c && c ≤ '9')

/-- Left-to-right non-overlapping substitution of the `RE_PARAM` matches, as
performed by `RE_PARAM.sub(lambda m: ..., message)`: at a `%` the longest
non-empty alphanumeric run is the match group and `repl` supplies its
replacement (`none` models the lambda raising, which propagates out of
`sub`); a `%` not followed by an alphanumeric character, and every other
character, is copied unchanged.  Replacement text is not rescanned.  The
`fuel` argument (instantiated with the string length, an upper bound on the
number of scanning steps) only makes the recursion structural. -/
def reParamSubAux (repl : String → Option String) :
    Nat → List Char → Option (List Char)
  | _, [] => some []
  | 0, _ :: _ => none
  | fuel + 1, c :: rest =>
      if c = '%' then
        match rest.takeWhile isParamChar with
        | [] => (reParamSubAux repl fuel rest).map (fun tail => c :: tail)
        | nm :: nms =>
            match repl (String.mk (nm :: nms)) with
            | none => none
            | some r =>
                (reParamSubAux repl fuel (rest.dropWhile isParamChar)).map
                  (fun tail => r.data ++ tail)
      else
        (reParamSubAux repl fuel rest).map (fun tail => c :: tail)

/-- `RE_PARAM.sub` over a whole character list. -/
def reParamSub (repl : String → Option String) (l : List Char) :
    Option (List Char) :=
  reParamSubAux repl l.length l

/-- The `parameters` payload: `Optional[Union[Dict[str, str], List[str]]]`. -/
inductive PyParams : Type where
  | dict (m : List (String × String))
  | plist (l : List String)
deriving DecidableEq, Repr

/-- Python list indexing `l[i]`, including negative indices from the end;
out of range raises (`none`). -/
def pyListIndex (l : List String) (i : Int) : Option String :=
  if 0 ≤ i then l.get? i.toNat
  else if 0 ≤ i + l.length then l.get? (i + l.length).toNat
  else none

/-- Decimal parser: `int(s)` restricted to the shapes an alphanumeric
regex group can take — it succeeds iff every character is a digit (the group
is non-empty by the `+` in the pattern). -/
def parseNatAux : List Char → Nat → Option Nat
  | [], acc => some acc
  | c :: rest, acc =>
      if '0' ≤ c && c ≤ '9' then
        parseNatAux rest (acc * 10 + (c.toNat - '0'.toNat))
      else none

/-- `int()` of a non-empty alphanumeric string. -/
def parseNat (l : List Char) : Option Nat :=
  match l with
  | [] => none
  | _ :: _ => parseNatAux l 0

/-- Replacement for the list case: `str(parameters[int(m.group(1)) - 1])`.
`int()` succeeds on the alphanumeric group iff it is all digits; the index
is 1-based. -/
def listRepl (l : List String) (name : String) : Option String :=
  match parseNat name.data with
  | none => none
  | some n => pyListIndex l ((n : Int) - 1)

/-- Replacement for the dict case: `str(parameters[m.group(1)])` — a plain
lookup, raising (`none`) on a missing key; values are strings so `str` is the
identity. -/
def dictRepl (m : List (String × String)) (name : String) : Option String :=
  m.lookup name

/-- Embedding of `build_exception_text` (`exceptions.py`, lines 10-28).
`if not parameters: return message` is falsy-aware: `None`, `{}` and `[]`
all return the message unchanged.  `none` as a result models an exception
escaping the substitution. -/
def build_exception_text (message : String) (parameters : Option PyParams) :
    Option String :=
  match parameters with
  | none => some message
  | some (.dict []) => some message
  | some (.plist []) => some message
  | some (.dict m) => (reParamSub (dictRepl m) message.data).map String.mk
  | some (.plist l) => (reParamSub (listRepl l) message.data).map String.mk

/-- C8: `build_exception_text` substitutes named placeholders from a mapping
and positional 1-indexed placeholders from a list, and returns the message
unchanged when `parameters` is empty or absent; in particular
`"Hello %name!"` with `{"name": "Jane"}` gives `"Hello Jane!"` and
`["manufacturer", "17726"]` substitutes `%1` and `%2` positionally. -/
theorem build_exception_text_spec :
    (∀ msg, build_exception_text msg none = some msg) ∧
    (∀ msg, build_exception_text msg (some (PyParams.dict [])) = some msg) ∧
    (∀ msg, build_exception_text msg (some (PyParams.plist [])) = some msg) ∧
    build_exception_text "Hello %name!" (some (PyParams.dict [("name", "Jane")]))
        = some "Hello Jane!" ∧
    build_exception_text
        "El atributo \"%1\" no incluye una opci\u00f3n con el ID \"%2\"."
        (some (PyParams.plist ["manufacturer", "17726"]))
        = some "El atributo \"manufacturer\" no incluye una opci\u00f3n con el ID \"17726\"." := by
  exact ⟨fun msg => rfl, fun msg => rfl, fun msg => rfl, by decide, by decide⟩

/-! ## Query-dict mutation discipline of `get_paginated`
(`client.py`, lines 1459-1474)

Python dicts are mutable objects, so whether `get_paginated` touches the
caller's `query` is a question about object identity.  The relevant
fragment is modelled over an explicit heap of dict objects: `query.copy()`
allocates a fresh cell, `d[k] = v` writes a cell in place. -/

/-- Python dict assignment on the contents of one dict: update the existing
key in place (keeping its position), else append. -/
def dictSet (d : List (String × Val)) (k : String) (v : Val) :
    List (String × Val) :=
  if d.any (fun e => e.1 = k) then
    d.map (fun e => if e.1 = k then (k, v) else e)
  else d ++ [(k, v)]

/-- Heap of dict objects; an address is an index into the cell list. -/
structure Heap : Type where
  cells : List (List (String × Val))
deriving DecidableEq, Repr

/-- Dereference (absent addresses read as `{}`; never exercised). -/
def Heap.get (h : Heap) (a : Nat) : List (String × Val) :=
  (h.cells.get? a).getD []

/-- In-place mutation of the object at address `a`. -/
def Heap.set (h : Heap) (a : Nat) (d : List (String × Val)) : Heap :=
  ⟨h.cells.set a d⟩

/-- `dict.copy()` / `{}`: allocate a fresh object, returning its address. -/
def Heap.alloc (h : Heap) (d : List (String × Val)) : Heap × Nat :=
  (⟨h.cells ++ [d]⟩, h.cells.length)

/-- Per-iteration query handling of the `while True:` loop (lines
1473-1474): `page_query = query.copy()` then
`page_query["searchCriteria[currentPage]"] = current_page`, for each page
number actually requested.  Returns the final heap and the sent page
queries. -/
def pageQueryLoop (h : Heap) (qaddr : Nat) :
    List Int → Heap × List (List (String × Val))
  | [] => (h, [])
  | p :: rest =>
      let al := h.alloc (h.get qaddr)
      let h2 := al.1.set al.2
        (dictSet (al.1.get al.2) "searchCriteria[currentPage]" (Val.i p))
      let r := pageQueryLoop h2 qaddr rest
      (r.1, h2.get al.2 :: r.2)

/-- Query preparation of `get_paginated` (lines 1459-1464):
`query = query.copy()` when a query is passed (else a fresh `{}`), then
`query["searchCriteria[pageSize]"] = page_size` on that private object,
then the page loop. -/
def preparedQueries (h : Heap) :
    Option Nat → Int → List Int → Heap × List (List (String × Val))
  | some a, page_size, pages =>
      pageQueryLoop
        ((h.alloc (h.get a)).1.set (h.alloc (h.get a)).2
          (dictSet ((h.alloc (h.get a)).1.get (h.alloc (h.get a)).2)
            "searchCriteria[pageSize]" (Val.i page_size)))
        (h.alloc (h.get a)).2 pages
  | none, page_size, pages =>
      pageQueryLoop
        ((h.alloc []).1.set (h.alloc []).2
          (dictSet ((h.alloc []).1.get (h.alloc []).2)
            "searchCriteria[pageSize]" (Val.i page_size)))
        (h.alloc []).2 pages

theorem Heap.get_alloc (h : Heap) (d : List (String × Val)) (a : Nat)
    (ha : a < h.cells.length) : (h.alloc d).1.get a = h.get a := by
  rw [Heap.alloc, Heap.get, Heap.get]
  simp only
  rw [List.get?_append ha]

theorem Heap.get_set_ne (h : Heap) (a b : Nat) (d : List (String × Val))
    (hne : b ≠ a) : (h.set b d).get a = h.get a := by
  rw [Heap.set, Heap.get, Heap.get]
  simp only
  rw [List.get?_set_ne _ _ hne]

theorem pageQueryLoop_frame (a : Nat) :
    ∀ (pages : List Int) (h : Heap) (qaddr : Nat), a < h.cells.length →
      (pageQueryLoop h qaddr pages).1.get a = h.get a ∧
      h.cells.length ≤ (pageQueryLoop h qaddr pages).1.cells.length := by
  intro pages
  induction pages with
  | nil => intro h qaddr ha; exact ⟨rfl, le_rfl⟩
  | cons p rest ih =>
      intro h qaddr ha
      simp only [pageQueryLoop]
      set h2 := (h.alloc (h.get qaddr)).1.set (h.alloc (h.get qaddr)).2
        (dictSet ((h.alloc (h.get qaddr)).1.get (h.alloc (h.get qaddr)).2)
          "searchCriteria[currentPage]" (Val.i p)) with hh2
      have hlen2 : h2.cells.length = h.cells.length + 1 := by
        rw [hh2, Heap.set, Heap.alloc]
        simp
      rcases ih h2 qaddr (by omega) with ⟨hget, hle⟩
      refine ⟨?_, by omega⟩
      rw [hget, hh2,
        Heap.get_set_ne _ _ _ _ (by simp only [Heap.alloc]; omega),
        Heap.get_alloc _ _ _ ha]

/-- C10: iterating `get_paginated` (fully or stopping after any number of
pages) leaves the caller's query dict unchanged: the `copy()` at entry makes
the `pageSize` write private, and each loop iteration writes `currentPage`
on a fresh copy, never on the caller's object. -/
theorem get_paginated_query_unchanged (h : Heap) (a : Nat) (page_size : Int)
    (pages : List Int) (ha : a < h.cells.length) :
    (preparedQueries h (some a) page_size pages).1.get a = h.get a := by
  rw [preparedQueries]
  set h2 := (h.alloc (h.get a)).1.set (h.alloc (h.get a)).2
    (dictSet ((h.alloc (h.get a)).1.get (h.alloc (h.get a)).2)
      "searchCriteria[pageSize]" (Val.i page_size)) with hh2
  have hlen2 : h2.cells.length = h.cells.length + 1 := by
    rw [hh2, Heap.set, Heap.alloc]
    simp
  rcases pageQueryLoop_frame a pages h2 (h.alloc (h.get a)).2 (by omega) with
    ⟨hget, -⟩
  rw [hget, hh2,
    Heap.get_set_ne _ _ _ _ (by simp only [Heap.alloc]; omega),
    Heap.get_alloc _ _ _ ha]

/-- C10 witness: a one-dict heap with a `"foo"` key, two pages requested. -/
theorem get_paginated_query_unchanged_witness :
    0 < (Heap.mk [[("foo", Val.s "bar")]]).cells.length ∧
    (preparedQueries (Heap.mk [[("foo", Val.s "bar")]]) (some 0) 100 [1, 2]).1.get 0
        = (Heap.mk [[("foo", Val.s "bar")]]).get 0 :=
  ⟨by decide,
   get_paginated_query_unchanged (Heap.mk [[("foo", Val.s "bar")]]) 0 100 [1, 2]
     (by decide)⟩

end PyMagento
